import Mathlib

/-!
Verification development for the OTB EMG acquisition application
(`BMEG 457 scripts/`): shallow embedding of the acquisition/processing
core (frame receiver, processing pipelines, circular track buffers,
calibration computation, contraction merge pass) together with theorems
settling the specification's testable properties.

Conventions of the embedding:
* numpy float arrays are modelled over `ℚ` (exact arithmetic); raw ADC
  sample words over `ℤ`; byte streams over `List ℕ` (each entry < 256).
* a Python expression that can raise is modelled with `Option`
  (`none` = an exception was raised).
* `np.sqrt` is the one non-rational primitive; definitions that need it
  take the square-root routine as an explicit parameter `sq : ℚ → ℚ`.
-/

/-- A sample matrix: channels × samples, as produced by the receiver. -/
abbrev Mat : Type := List (List ℤ)

/-- Python `int(x)` on a float/rational: truncation toward zero. -/
def pyInt (q : ℚ) : ℤ := if q < 0 then ⌈q⌉ else ⌊q⌋

/-- Arithmetic mean, `np.mean` (0 on the empty list, where numpy warns and
yields nan; all uses below are guarded by nonemptiness). -/
def listMean (l : List ℚ) : ℚ := l.sum / l.length

/-- `np.max` of a list (its head as the base case; numpy raises on an empty
list, and every use below is guarded by nonemptiness). -/
def listMax (l : List ℚ) : ℚ := l.foldl max (l.headD 0)

/-! ## `app/processing/pipeline.py` -/

/-- `ProcessingPipeline` from `app/processing/pipeline.py`: an ordered
list of stages. -/
structure ProcessingPipeline where
  stages : List (Mat → Mat)

/-- `ProcessingPipeline.run`: `x = data; for stage in self.stages: x = stage(x); return x`. -/
def ProcessingPipeline.run (p : ProcessingPipeline) (data : Mat) : Mat :=
  p.stages.foldl (fun x stage => stage x) data

/-- `ProcessingPipeline.run` for raising stages: a stage returning `none`
models a stage that throws; the loop propagates the exception. -/
def runExc (stages : List (Mat → Option Mat)) (data : Mat) : Option Mat :=
  stages.foldl (fun x stage => x.bind stage) (some data)

/-! ## Per-frame branch processing, `DataReceiverThread.run`
(`app/data/data_receiver.py`, lines 86-142) -/

/-- `try: filtered = get_pipeline('filtered').run(raw) except: filtered = raw`. -/
def filteredBranch (pf : Mat → Option Mat) (raw : Mat) : Mat :=
  (pf raw).getD raw

/-- `try: rectified = get_pipeline('rectified').run(filtered) except: rectified = filtered`. -/
def rectifiedBranch (pr pf : Mat → Option Mat) (raw : Mat) : Mat :=
  (pr (filteredBranch pf raw)).getD (filteredBranch pf raw)

/-- `try: processed = self.processor.run(raw) except: processed = rectified`. -/
def finalBranch (pfin pr pf : Mat → Option Mat) (raw : Mat) : Mat :=
  (pfin raw).getD (rectifiedBranch pr pf raw)

/-- Circular per-track sample store (`Track` of `app/core/track.py`):
`buffer` is channels × capacity, `bufferIndex` the write cursor.
(Plot-widget state is UI and not modelled.) -/
structure TrackState where
  buffer : List (List ℤ)
  bufferIndex : ℕ
deriving DecidableEq, Repr

/-- `track.num_channels` (the buffer row count). -/
def TrackState.numChannels (t : TrackState) : ℕ := t.buffer.length

/-- numpy slice assignment `l[s:s+len(seg)] = seg` on one row (meaningful
when `s + seg.length ≤ l.length`, which numpy enforces; the wrapping
callers below establish it). -/
def setSlice (l : List ℤ) (s : ℕ) (seg : List ℤ) : List ℤ :=
  l.take s ++ seg ++ l.drop (s + seg.length)

/-- One row of `Track.feed`'s buffer write: the wrap-around split
(`buffer[:, idx:] = packet[:, :end_space]; buffer[:, :p-end_space] = packet[:, end_space:]`)
or the contiguous write. -/
def feedRow (cap idx p : ℕ) (row pkt : List ℤ) : List ℤ :=
  if cap < idx + p then
    let es := cap - idx
    setSlice (if 0 < es then setSlice row idx (pkt.take es) else row) 0 (pkt.drop es)
  else
    setSlice row idx pkt

/-- `Track.feed` (`app/core/track.py`, lines 47-58). `none` models the
numpy broadcast error raised when the wrapped remainder
`packet_size - end_space` exceeds the buffer width. -/
def TrackState.feed (t : TrackState) (packet : List (List ℤ)) : Option TrackState :=
  let p := (packet.headD []).length
  let cap := (t.buffer.headD []).length
  if cap < t.bufferIndex + p then
    if cap < p - (cap - t.bufferIndex) then none
    else some ⟨List.zipWith (feedRow cap t.bufferIndex p) t.buffer packet,
      p - (cap - t.bufferIndex)⟩
  else
    some ⟨List.zipWith (feedRow cap t.bufferIndex p) t.buffer packet,
      (t.bufferIndex + p) % cap⟩

/-- Feed the `processed` matrix to the tracks
(`idx = 0; for track in tracks: track.feed(processed[idx:idx+track.num_channels]); idx += ...`). -/
def feedAll (processed : List (List ℤ)) : List TrackState → ℕ → Option (List TrackState)
  | [], _ => some []
  | t :: ts, idx =>
    match t.feed ((processed.drop idx).take t.numChannels) with
    | none => none
    | some t1 =>
      match feedAll processed ts (idx + t.numChannels) with
      | none => none
      | some ts1 => some (t1 :: ts1)

/-- Observable effect of processing one decoded frame
(`DataReceiverThread.run`, lines 86-142): the emitted
`stage_output (name, matrix)` events in order, the `data_received`
emissions, and the resulting track states (`none` = a feed raised). -/
structure FrameStep where
  stageEvents : List (String × Mat)
  dataReceived : List Mat
  tracksAfter : Option (List TrackState)
deriving Repr

/-- One iteration's frame-processing body: compute the branch outputs in
the order raw, filtered, rectified, final with their fallback chain, emit
each computed branch, and — only when `running` — feed the tracks and emit
`data_received`. -/
def processFrame (pf pr pfin : Mat → Option Mat) (running : Bool)
    (tracks : List TrackState) (raw : Mat) : FrameStep :=
  let filtered := filteredBranch pf raw
  let processed := finalBranch pfin pr pf raw
  { stageEvents :=
      [("raw", raw)]
        ++ (match pf raw with | some f => [("filtered", f)] | none => [])
        ++ (match pr filtered with | some r => [("rectified", r)] | none => [])
        ++ [("final", processed)]
  , dataReceived := if running then [processed] else []
  , tracksAfter := if running then feedAll processed tracks 0 else some tracks }

/-! ## Calibration (`app/ui/dialogs/dialogs.py`, `CalibrationDialog`) -/

/-- Insert into a sorted list (helper for the sort used by `np.median`
and `np.percentile`). -/
def insertSorted (x : ℚ) : List ℚ → List ℚ
  | [] => [x]
  | y :: ys => if x ≤ y then x :: y :: ys else y :: insertSorted x ys

/-- Sort ascending (the order `np.median` / `np.percentile` work with). -/
def isort : List ℚ → List ℚ
  | [] => []
  | x :: xs => insertSorted x (isort xs)

/-- `np.median`: middle element of the sorted list, or the average of the
two middle elements when the length is even. -/
def medianOf (l : List ℚ) : ℚ :=
  let s := isort l
  let n := l.length
  if n % 2 = 1 then s.getD (n / 2) 0
  else (s.getD (n / 2 - 1) 0 + s.getD (n / 2) 0) / 2

/-- `np.percentile(l, 99)` with the default linear interpolation:
position `0.99·(n-1)` in the sorted list, interpolated between its two
surrounding order statistics. -/
def percentile99 (l : List ℚ) : ℚ :=
  let s := isort l
  let pos : ℚ := (99 / 100) * ((l.length : ℚ) - 1)
  let k : ℕ := (pyInt pos).toNat
  s.getD k 0 + (pos - k) * (s.getD (k + 1) 0 - s.getD k 0)

/-- Population variance (the square of `np.std`). -/
def popVariance (l : List ℚ) : ℚ :=
  listMean (l.map (fun x => (x - listMean l) ^ 2))

/-- `np.std` with its square-root routine abstracted as `sq`. -/
def npStd (sq : ℚ → ℚ) (l : List ℚ) : ℚ := sq (popVariance l)

/-! ### Spatial repair, `CalibrationDialog._fix_low_channels_spatial`
(lines 70-147): first 64 channels as an 8×8 grid,
`channel_idx = col*8 + (7 - row)`; cells below 10% of the 64-channel
median are replaced in place by the mean of their above-threshold 3×3
neighbors, or by the median when no neighbor qualifies. -/

/-- `channel_idx = col * 8 + (7 - row)`. -/
def channelIdx (row col : ℕ) : ℕ := col * 8 + (7 - row)

/-- The grid as a flat list of 64 cells, cell `(row, col)` at `row*8+col`. -/
def gridGet (g : List ℚ) (r c : ℕ) : ℚ := g.getD (r * 8 + c) 0

/-- Overwrite grid cell `(row, col)`. -/
def gridSet (g : List ℚ) (r c : ℕ) (v : ℚ) : List ℚ := g.set (r * 8 + c) v

/-- `grid[row, col] = grid_channels[col*8 + (7-row)]`. -/
def toGrid (m : List ℚ) : List ℚ :=
  (List.range 64).map (fun j => m.getD (channelIdx (j / 8) (j % 8)) 0)

/-- Iteration order of the repair pass: `for col in range(8): for row in range(8)`. -/
def gridVisits : List (ℕ × ℕ) :=
  (List.range 8).flatMap (fun col => (List.range 8).map (fun row => (row, col)))

/-- Neighbor offsets `(dr, dc)` in visit order, center excluded. -/
def neighborOffsets : List (ℤ × ℤ) :=
  [(-1, -1), (-1, 0), (-1, 1), (0, -1), (0, 1), (1, -1), (1, 0), (1, 1)]

/-- The in-bounds 3×3 neighbors of `(r, c)` whose current value is
`≥ low_threshold`. -/
def neighborVals (thr : ℚ) (g : List ℚ) (r c : ℕ) : List ℚ :=
  neighborOffsets.filterMap (fun d =>
    let nr : ℤ := (r : ℤ) + d.1
    let nc : ℤ := (c : ℤ) + d.2
    if 0 ≤ nr ∧ nr < 8 ∧ 0 ≤ nc ∧ nc < 8 then
      let v := gridGet g nr.toNat nc.toNat
      if thr ≤ v then some v else none
    else none)

/-- Replacement value for a low cell: mean of its qualifying neighbors,
or the 64-channel median when none qualifies. -/
def repairValue (thr med : ℚ) (g : List ℚ) (r c : ℕ) : ℚ :=
  let ns := neighborVals thr g r c
  if ns.isEmpty then med else listMean ns

/-- One visit of the repair sweep: cells `≥ low_threshold` are left
untouched; a low cell is overwritten in place. -/
def repairStep (thr med : ℚ) (g : List ℚ) (p : ℕ × ℕ) : List ℚ :=
  if gridGet g p.1 p.2 < thr then gridSet g p.1 p.2 (repairValue thr med g p.1 p.2) else g

/-- `median_mvc = np.median(grid_channels)` over the first 64 channels. -/
def median64 (m : List ℚ) : ℚ := medianOf (m.take 64)

/-- `low_threshold = median_mvc * 0.1`. -/
def lowThreshold (m : List ℚ) : ℚ := median64 m * (1 / 10)

/-- The grid after the full in-place repair sweep. -/
def repairedGrid (m : List ℚ) : List ℚ :=
  gridVisits.foldl (repairStep (lowThreshold m) (median64 m)) (toGrid (m.take 64))

/-- The grid state when the sweep reaches position `p` (all visits before
`p` applied). -/
def repairedGridUpTo (m : List ℚ) (p : ℕ × ℕ) : List ℚ :=
  (gridVisits.takeWhile (fun q => decide (q ≠ p))).foldl
    (repairStep (lowThreshold m) (median64 m)) (toGrid (m.take 64))

/-- `CalibrationDialog._fix_low_channels_spatial`: vectors shorter than 64
are returned unchanged; otherwise the first 64 channels go through the
8×8 in-place repair sweep and are written back. -/
def fixLowChannelsSpatial (m : List ℚ) : List ℚ :=
  if m.length < 64 then m
  else
    (List.range 64).map (fun i => gridGet (repairedGrid m) (7 - i % 8) (i / 8))
      ++ m.drop 64

/-- Saturation guard used during calibration:
`(v > -32760) and (v < 32760)`. -/
def nonSaturated (v : ℚ) : Bool := decide (-32760 < v) && decide (v < 32760)

/-- Per-channel MVC from the stacked contraction-phase RMS vectors:
filter saturated readings; 99th percentile of the survivors, or the
sentinel 0 when every reading is saturated. -/
def mvcOfContraction (contraction : List (List ℚ)) : List ℚ :=
  (List.range (contraction.headD []).length).map (fun c =>
    let col := contraction.map (fun v => v.getD c 0)
    let nonSat := col.filter nonSaturated
    if nonSat.isEmpty then 0 else percentile99 nonSat)

/-- `threshold = baseline_rms + k * baseline_std`, elementwise. The source
hardcodes the multiplier to `3.0`; the parameter `k` names that
multiplier so its role can be stated. -/
def thresholdWith (k : ℚ) (baseline baselineStd : List ℚ) : List ℚ :=
  List.zipWith (fun b s => b + k * s) baseline baselineStd

/-- `CalibrationDialog.compute_threshold_and_close` (lines 244-320):
given the per-phase lists of per-channel RMS vectors, fail (`none`, no
emission) when either phase collected fewer than one vector; otherwise
emit `(baseline_rms, threshold, mvc_rms)`. -/
def computeCalibration (sq : ℚ → ℚ) (rest contraction : List (List ℚ)) :
    Option (List ℚ × List ℚ × List ℚ) :=
  if rest.length < 1 ∨ contraction.length < 1 then none
  else
    let nch := (rest.headD []).length
    let baseline := (List.range nch).map (fun c => listMean (rest.map (fun v => v.getD c 0)))
    let baselineStd := (List.range nch).map (fun c => npStd sq (rest.map (fun v => v.getD c 0)))
    let mvc := fixLowChannelsSpatial (mvcOfContraction contraction)
    some (baseline, thresholdWith 3 baseline baselineStd, mvc)

/-! ## Track buffer resize, `TrackManager.change_plot_time`
(`app/managers/track_manager.py`, lines 105-122) -/

/-- Python `row[-k:]` (note `row[-0:]` is the whole row). -/
def lastCols (k : ℕ) (row : List ℤ) : List ℤ :=
  if k = 0 then row else row.drop (row.length - k)

/-- numpy `dst[-k:] = seg` on one row (`dst[-0:] = seg` overwrites the
whole row; numpy enforces the length match, which holds at all uses). -/
def setLastCols (dst : List ℤ) (k : ℕ) (seg : List ℤ) : List ℤ :=
  if k = 0 then seg else dst.take (dst.length - k) ++ seg

/-- `TrackManager.change_plot_time` on one track:
`new_buf = zeros((nch, int(new_time*frequency)))`;
`copy = min(new_buf.shape[1], buffer.shape[1])`;
`new_buf[:, -copy:] = buffer[:, -copy:]`;
`buffer_index = min(buffer_index, new_buf.shape[1])`. -/
def changePlotTime (newTime freq : ℚ) (t : TrackState) : TrackState :=
  let newCap := (pyInt (newTime * freq)).toNat
  let oldCap := (t.buffer.headD []).length
  let copy := min newCap oldCap
  { buffer := t.buffer.map (fun row => setLastCols (List.replicate newCap 0) copy (lastCols copy row))
  , bufferIndex := min t.bufferIndex newCap }

/-- Modelled from the spec (not from the source): the resize C2 claims —
the most recent `copy` samples of each channel in chronological
(circular) order ending at the write cursor, tail-aligned into the new
buffer, with `cursor = copy mod new_capacity`. -/
def specResize (newCap : ℕ) (t : TrackState) : TrackState :=
  let oldCap := (t.buffer.headD []).length
  let copy := min newCap oldCap
  { buffer := t.buffer.map (fun row =>
      List.replicate (newCap - copy) 0 ++
        (List.range copy).map (fun j => row.getD ((t.bufferIndex + oldCap - copy + j) % oldCap) 0))
  , bufferIndex := copy % newCap }

/-! ## Contraction merge pass, `detect_contractions_rms_rate`
(`app/processing/features.py`, lines 103-130) -/

/-- Default merge gap: `max(3, int(min_duration_samples * 0.5))`. -/
def defaultMergeGap (minDurationSamples : ℕ) : ℕ :=
  max 3 (pyInt ((minDurationSamples : ℚ) * (1 / 2))).toNat

/-- The scan of the merge pass: carry the current `(start, end, peak)`;
a following contraction whose gap in samples (`int(gap_time * fs)`) is
within `mergeGap` is absorbed, recomputing the peak with
`np.max(rms_data[int(start*fs):int(end*fs)])`; otherwise the current
contraction is flushed. -/
def mergeScan (rmsData : List ℚ) (fs : ℚ) (mergeGap : ℕ) :
    (ℚ × ℚ × ℚ) → List (ℚ × ℚ × ℚ) → List (ℚ × ℚ × ℚ)
  | cur, [] => [cur]
  | cur, nxt :: rest =>
    let gapSamples : ℤ := pyInt ((nxt.1 - cur.2.1) * fs)
    if gapSamples ≤ (mergeGap : ℤ) then
      let newEnd := nxt.2.1
      let sIdx := (pyInt (cur.1 * fs)).toNat
      let eIdx := (pyInt (newEnd * fs)).toNat
      mergeScan rmsData fs mergeGap
        (cur.1, newEnd, listMax ((rmsData.take eIdx).drop sIdx)) rest
    else cur :: mergeScan rmsData fs mergeGap nxt rest

/-- The merge pass of `detect_contractions_rms_rate`: lists of at most one
contraction are returned as-is (`if len(contractions) > 1`); otherwise the
chronological scan above, with the default merge gap when none was
supplied. -/
def mergeContractions (rmsData : List ℚ) (fs : ℚ) (minDurationSamples : ℕ)
    (mergeGapOpt : Option ℕ) (contractions : List (ℚ × ℚ × ℚ)) : List (ℚ × ℚ × ℚ) :=
  if contractions.length ≤ 1 then contractions
  else
    let mg := mergeGapOpt.getD (defaultMergeGap minDurationSamples)
    match contractions with
    | [] => []
    | c :: rest => mergeScan rmsData fs mg c rest

/-! ## Frame reassembly, `DataReceiverThread.run`
(`app/data/data_receiver.py`, lines 34-84).

The socket is modelled by the undelivered byte `stream` plus `avail`, the
sizes in which the network makes bytes available: each `recv(n)` call
returns the next `min(n, avail_head)` pending bytes (an empty result
models a closed peer, `recv` after `avail` runs out likewise). -/

/-- `expected_bytes = nchannels * 2 * (frequency // 16)`. -/
def expectedBytes (nchannels frequency : ℕ) : ℕ :=
  nchannels * 2 * (frequency / 16)

/-- One `socket.recv(n)`: the returned bytes, the remaining stream and
the remaining availability schedule. -/
def recvN (n : ℕ) (stream : List ℕ) (avail : List ℕ) :
    List ℕ × List ℕ × List ℕ :=
  match avail with
  | [] => ([], stream, [])
  | a :: rest => ((stream.take (min n a)), stream.drop (min n a), rest)

/-- Big-endian signed 16-bit decode of one byte pair. -/
def decodeInt16 (hi lo : ℕ) : ℤ :=
  let v := hi * 256 + lo
  if v < 32768 then (v : ℤ) else (v : ℤ) - 65536

/-- `struct.unpack('>Nh', data)`: consecutive big-endian int16 words. -/
def decodeShorts : List ℕ → List ℤ
  | hi :: lo :: rest => decodeInt16 hi lo :: decodeShorts rest
  | _ => []

/-- The top-up loop for a short read:
`while len(data) < packet_bytes and self.running: chunk = recv(remaining); if not chunk: break; data += chunk`. -/
def topUp (running : Bool) (pb : ℕ) (data stream : List ℕ) :
    List ℕ → List ℕ × List ℕ × List ℕ
  | [] => (data, stream, [])
  | a :: rest =>
    if running ∧ data.length < pb then
      let got := recvN (pb - data.length) stream (a :: rest)
      if got.1.isEmpty then (data, got.2.1, got.2.2)
      else topUp running pb (data ++ got.1) got.2.1 got.2.2
    else (data, stream, a :: rest)

/-- `unpacked = struct.unpack(f'>{len(data)//2}h', data)` followed by
`np.array(unpacked).reshape((-1, nchannels)).T`, assuming both succeed:
the (channels × samples) matrix. -/
def decodedFrame (nch : ℕ) (data : List ℕ) : Mat :=
  let shorts := decodeShorts data
  (List.range nch).map (fun c =>
    (List.range (shorts.length / nch)).map (fun s => shorts.getD (s * nch + c) 0))

/-- The decode step with its failure modes: `struct.unpack` raises when
the byte count is odd, `reshape((-1, nchannels))` raises when the word
count is not a multiple of `nchannels` (or `nchannels = 0`). -/
def decodeFrame (nch : ℕ) (data : List ℕ) : Option Mat :=
  if data.length % 2 ≠ 0 then none
  else if nch = 0 ∨ (decodeShorts data).length % nch ≠ 0 then none
  else some (decodedFrame nch data)

/-- The receive loop of `DataReceiverThread.run`, returning the decoded
frames in arrival order. The first packet is read with a 65536-byte
buffer and its length becomes `packet_bytes`; later reads request
`packet_bytes`, a short read is topped up (while `running`), a packet
still incomplete after top-up is skipped (`continue`), and a decode
error ends the thread. `fuel` bounds the iterations; every iteration
consumes an `avail` entry, so `avail.length + 1` is enough. -/
def runLoop (nch : ℕ) (running : Bool) :
    ℕ → Bool → ℕ → List ℕ → List ℕ → List Mat
  | 0, _, _, _, _ => []
  | fuel + 1, firstPacket, pb, stream, avail =>
    if firstPacket then
      let got := recvN 65536 stream avail
      if got.1.isEmpty then []
      else
        match decodeFrame nch got.1 with
        | none => []
        | some f => f :: runLoop nch running fuel false got.1.length got.2.1 got.2.2
    else
      let got := recvN pb stream avail
      if got.1.isEmpty then []
      else if got.1.length ≠ pb then
        let full := topUp running pb got.1 got.2.1 got.2.2
        if full.1.length ≠ pb then runLoop nch running fuel false pb full.2.1 full.2.2
        else
          match decodeFrame nch full.1 with
          | none => []
          | some f => f :: runLoop nch running fuel false pb full.2.1 full.2.2
      else
        match decodeFrame nch got.1 with
        | none => []
        | some f => f :: runLoop nch running fuel false pb got.2.1 got.2.2

/-- `DataReceiverThread.run`'s frame production on a finite byte stream. -/
def runModel (nch : ℕ) (running : Bool) (stream avail : List ℕ) : List Mat :=
  runLoop nch running (avail.length + 1) true 0 stream avail

/-- Cyclic buffer write: `pkt` written one sample at a time starting at
cursor `i`, indices reduced modulo `cap` (reference semantics the
`Track.feed` slice writes are proved equal to). -/
def cyclicWrite (cap : ℕ) (buf : List ℤ) (i : ℕ) : List ℤ → List ℤ
  | [] => buf
  | v :: vs => cyclicWrite cap (buf.set (i % cap) v) (i + 1) vs

/-- Column-wise concatenation of two packets (`np.concatenate(axis=1)`). -/
def concatCols (a b : List (List ℤ)) : List (List ℤ) :=
  List.zipWith (fun x y => x ++ y) a b

/-! ## Theorems -/

/-- C9: `Pipeline.run` with an empty stage list returns its input
unchanged, and with stage list `[f, g]` returns `g (f x)`: stages are
applied strictly in list order, each stage's output feeding the next. -/
theorem c9_pipeline_run_order (x : Mat) (f g : Mat → Mat) :
    (ProcessingPipeline.mk []).run x = x ∧
      (ProcessingPipeline.mk [f, g]).run x = g (f x) :=
  ⟨rfl, rfl⟩

/-- C3: per decoded frame the branch outputs follow the fallback chain —
`filtered` is the filtered pipeline's output on `raw` or `raw` itself if
that pipeline raises; `rectified` is the rectified pipeline on `filtered`
or `filtered`; `final` is the final pipeline on `raw` or `rectified` —
and the published stage events keep the fixed order raw, filtered,
rectified, final, so a raising stage never aborts the frame. -/
theorem c3_branch_fallback_chain (stagesF stagesR stagesFin : List (Mat → Option Mat))
    (running : Bool) (tracks : List TrackState) (raw : Mat) :
    (∀ y, runExc stagesF raw = some y → filteredBranch (runExc stagesF) raw = y)
    ∧ (runExc stagesF raw = none → filteredBranch (runExc stagesF) raw = raw)
    ∧ (∀ y, runExc stagesR (filteredBranch (runExc stagesF) raw) = some y →
        rectifiedBranch (runExc stagesR) (runExc stagesF) raw = y)
    ∧ (runExc stagesR (filteredBranch (runExc stagesF) raw) = none →
        rectifiedBranch (runExc stagesR) (runExc stagesF) raw
          = filteredBranch (runExc stagesF) raw)
    ∧ (∀ y, runExc stagesFin raw = some y →
        finalBranch (runExc stagesFin) (runExc stagesR) (runExc stagesF) raw = y)
    ∧ (runExc stagesFin raw = none →
        finalBranch (runExc stagesFin) (runExc stagesR) (runExc stagesF) raw
          = rectifiedBranch (runExc stagesR) (runExc stagesF) raw)
    ∧ (processFrame (runExc stagesF) (runExc stagesR) (runExc stagesFin)
          running tracks raw).stageEvents.map Prod.fst
        = ["raw"]
          ++ (if (runExc stagesF raw).isSome then ["filtered"] else [])
          ++ (if (runExc stagesR (filteredBranch (runExc stagesF) raw)).isSome then
                ["rectified"] else [])
          ++ ["final"] := by
  refine ⟨fun y h => ?_, fun h => ?_, fun y h => ?_, fun h => ?_, fun y h => ?_,
    fun h => ?_, ?_⟩
  · simp [filteredBranch, h]
  · simp [filteredBranch, h]
  · simp [rectifiedBranch, h]
  · simp [rectifiedBranch, h]
  · simp [finalBranch, h]
  · simp [finalBranch, h]
  · unfold processFrame
    rcases hf : runExc stagesF raw with _ | y <;>
      rcases hr : runExc stagesR (filteredBranch (runExc stagesF) raw) with _ | z <;>
        simp [hf, hr]

/-- Witness for C3 at concrete pipelines: one raising stage in the
filtered and final pipelines, an empty rectified pipeline. -/
theorem c3_branch_fallback_chain_witness :
    filteredBranch (runExc [fun _ => (none : Option Mat)]) [[1]] = [[1]]
    ∧ rectifiedBranch (runExc []) (runExc [fun _ => none]) [[1]] = [[1]]
    ∧ finalBranch (runExc [fun _ => none]) (runExc []) (runExc [fun _ => none]) [[1]]
        = [[1]] := by
  have h := c3_branch_fallback_chain [fun _ => none] [] [fun _ => none] false [] [[1]]
  exact ⟨h.2.1 rfl, h.2.2.1 [[1]] rfl, h.2.2.2.2.2.1 rfl⟩

/-- C10: a frame processed while `running = False` leaves every track
untouched and emits no `data_received`, yet the stage events are exactly
those of the running case (the branch outputs are computed and published
regardless), including the raw and final branches. -/
theorem c10_paused_frame_effect (pf pr pfin : Mat → Option Mat)
    (tracks : List TrackState) (raw : Mat) :
    (processFrame pf pr pfin false tracks raw).tracksAfter = some tracks
    ∧ (processFrame pf pr pfin false tracks raw).dataReceived = []
    ∧ (processFrame pf pr pfin false tracks raw).stageEvents
        = (processFrame pf pr pfin true tracks raw).stageEvents
    ∧ ("raw", raw) ∈ (processFrame pf pr pfin false tracks raw).stageEvents
    ∧ ("final", finalBranch pfin pr pf raw)
        ∈ (processFrame pf pr pfin false tracks raw).stageEvents := by
  refine ⟨rfl, rfl, rfl, ?_, ?_⟩ <;> simp [processFrame]

/-- C5: when either calibration phase collected no RMS vectors, the
computation fails: no `(baseline, threshold, mvc)` triple is produced. -/
theorem c5_insufficient_data (sq : ℚ → ℚ) (rest contraction : List (List ℚ))
    (h : rest = [] ∨ contraction = []) :
    computeCalibration sq rest contraction = none := by
  unfold computeCalibration
  rcases h with h | h <;> simp [h]

/-- Witness for C5: an empty rest phase with a nonempty contraction phase. -/
theorem c5_insufficient_data_witness :
    (([] : List (List ℚ)) = [] ∨ ([[1]] : List (List ℚ)) = [])
    ∧ computeCalibration (fun q => q) [] [[1]] = none :=
  ⟨Or.inl rfl, c5_insufficient_data (fun q => q) [] [[1]] (Or.inl rfl)⟩

/-- Indexing a list by `getD` over `range` of its length rebuilds it. -/
theorem getD_range_map (l : List ℚ) :
    (List.range l.length).map (fun c => l.getD c 0) = l := by
  apply List.ext_getElem
  · simp
  · intro i h1 h2
    simp [List.getD_eq_getElem?_getD, List.getElem?_eq_getElem, h2]

/-- The mean of `n > 0` copies of `x` is `x`. -/
theorem listMean_replicate (n : ℕ) (hn : 0 < n) (x : ℚ) :
    listMean (List.replicate n x) = x := by
  simp [listMean, List.sum_replicate, nsmul_eq_mul]
  field_simp

/-- The population variance of `n > 0` copies of `x` is `0`. -/
theorem popVariance_replicate (n : ℕ) (hn : 0 < n) (x : ℚ) :
    popVariance (List.replicate n x) = 0 := by
  unfold popVariance
  rw [List.map_replicate, listMean_replicate n hn, listMean_replicate n hn, sub_self]
  norm_num

/-- `baseline + k·std` with an all-zero std vector is the baseline, for
every multiplier `k`. -/
theorem thresholdWith_zero_std (k : ℚ) (l : List ℚ) :
    thresholdWith k l (List.replicate l.length 0) = l := by
  induction l with
  | nil => rfl
  | cons x xs ih => simpa [thresholdWith, List.replicate_succ] using ih

/-- C6: with a rest phase of `n > 0` identical per-channel RMS vectors
`r` (per-channel standard deviation zero) and any nonempty contraction
phase, the computed baseline and threshold both equal `r`; the threshold
is `r` for every standard-deviation multiplier `k`, not just the
hardcoded `3`. -/
theorem c6_constant_rest (sq : ℚ → ℚ) (hsq : sq 0 = 0) (r : List ℚ) (n : ℕ)
    (hn : 0 < n) (contraction : List (List ℚ)) (hc : contraction ≠ []) :
    (∃ mvc, computeCalibration sq (List.replicate n r) contraction = some (r, r, mvc))
    ∧ ∀ k : ℚ, thresholdWith k r ((List.range r.length).map
        (fun c => npStd sq ((List.replicate n r).map (fun v => v.getD c 0)))) = r := by
  obtain ⟨m, rfl⟩ : ∃ m, n = m + 1 := ⟨n - 1, (Nat.succ_pred_eq_of_pos hn).symm⟩
  have hcol : ∀ c : ℕ, (List.replicate (m + 1) r).map (fun v => v.getD c 0)
      = List.replicate (m + 1) (r.getD c 0) := fun c => List.map_replicate
  have hstd : (List.range r.length).map
      (fun c => npStd sq ((List.replicate (m + 1) r).map (fun v => v.getD c 0)))
      = List.replicate r.length 0 := by
    apply List.ext_getElem
    · simp
    · intro i h1 h2
      simp only [List.getElem_map, List.getElem_range, List.getElem_replicate]
      rw [npStd, hcol, popVariance_replicate (m + 1) (Nat.succ_pos m), hsq]
  have hbase : (List.range r.length).map
      (fun c => listMean ((List.replicate (m + 1) r).map (fun v => v.getD c 0))) = r := by
    have h : ∀ c ∈ List.range r.length,
        listMean ((List.replicate (m + 1) r).map (fun v => v.getD c 0)) = r.getD c 0 := by
      intro c _
      rw [hcol, listMean_replicate (m + 1) (Nat.succ_pos m)]
    rw [List.map_congr_left h, getD_range_map]
  have hlen : ((List.replicate (m + 1) r).headD []).length = r.length := rfl
  constructor
  · refine ⟨fixLowChannelsSpatial (mvcOfContraction contraction), ?_⟩
    unfold computeCalibration
    rw [if_neg]
    · rw [hlen]
      simp only [hbase, hstd, thresholdWith_zero_std]
    · simp [hc]
  · intro k
    rw [hstd, thresholdWith_zero_std]

/-- Witness for C6 at `sq = id`, one rest tick `[5]`, one contraction
tick `[7]`. -/
theorem c6_constant_rest_witness :
    ((fun q : ℚ => q) 0 = 0) ∧ (0 : ℕ) < 1 ∧ ([[7]] : List (List ℚ)) ≠ []
    ∧ (∃ mvc, computeCalibration (fun q => q) (List.replicate 1 [(5 : ℚ)]) [[7]]
        = some ([5], [5], mvc)) := by
  refine ⟨rfl, Nat.one_pos, by simp, ?_⟩
  exact (c6_constant_rest (fun q => q) rfl [5] 1 Nat.one_pos [[7]] (by simp)).1

/-- Every element of `takeWhile pred l` satisfies `pred`. -/
theorem mem_of_takeWhile {α : Type} (pred : α → Bool) :
    ∀ (l : List α) (q : α), q ∈ l.takeWhile pred → pred q = true := by
  intro l
  induction l with
  | nil => intro q h; simp [List.takeWhile] at h
  | cons a l ih =>
    intro q h
    rw [List.takeWhile_cons] at h
    by_cases hpa : pred a
    · simp only [hpa, if_true] at h
      rcases List.mem_cons.mp h with rfl | h
      · exact hpa
      · exact ih q h
    · simp [hpa] at h

/-- A duplicate-free list splits at an element `p` into the `takeWhile`
elements before it (all `≠ p`), `p` itself, and a tail avoiding `p`. -/
theorem takeWhile_ne_decomp {α : Type} [DecidableEq α] :
    ∀ (l : List α) (p : α), p ∈ l → l.Nodup →
      ∃ t, l = l.takeWhile (fun q => decide (q ≠ p)) ++ p :: t ∧ p ∉ t := by
  intro l
  induction l with
  | nil => intro p h; cases h
  | cons a l ih =>
    intro p hmem hnd
    by_cases hap : a = p
    · subst hap
      refine ⟨l, ?_, (List.nodup_cons.mp hnd).1⟩
      simp [List.takeWhile_cons]
    · have hp : p ∈ l := by
        rcases List.mem_cons.mp hmem with h | h
        · exact absurd h.symm hap
        · exact h
      obtain ⟨t, hl, hpt⟩ := ih p hp (List.nodup_cons.mp hnd).2
      refine ⟨t, ?_, hpt⟩
      have hstep : (a :: l).takeWhile (fun q => decide (q ≠ p))
          = a :: l.takeWhile (fun q => decide (q ≠ p)) := by
        simp [List.takeWhile_cons, hap]
      rw [hstep, List.cons_append]
      exact congrArg (a :: ·) hl

/-- Membership characterization of the repair sweep's visit order. -/
theorem gridVisits_mem_iff (p : ℕ × ℕ) : p ∈ gridVisits ↔ p.1 < 8 ∧ p.2 < 8 := by
  cases p with
  | mk r c =>
    simp only [gridVisits, List.mem_flatMap, List.mem_map, List.mem_range,
      Prod.mk.injEq]
    constructor
    · rintro ⟨col, hcol, row, hrow, h1, h2⟩
      omega
    · rintro ⟨h1, h2⟩
      exact ⟨c, h2, r, h1, rfl, rfl⟩

/-- Each grid position is visited exactly once. -/
theorem gridVisits_nodup : gridVisits.Nodup := by decide

/-- A repair visit preserves the grid size. -/
theorem repairStep_length (thr med : ℚ) (g : List ℚ) (q : ℕ × ℕ) :
    (repairStep thr med g q).length = g.length := by
  unfold repairStep gridSet
  split <;> simp

/-- A sweep over any visit list preserves the grid size. -/
theorem foldl_repairStep_length (thr med : ℚ) :
    ∀ (l : List (ℕ × ℕ)) (g : List ℚ),
      (l.foldl (repairStep thr med) g).length = g.length := by
  intro l
  induction l with
  | nil => intro g; rfl
  | cons q l ih => intro g; rw [List.foldl_cons, ih, repairStep_length]

/-- The grid holds 64 cells. -/
theorem toGrid_length (x : List ℚ) : (toGrid x).length = 64 := by simp [toGrid]

/-- `getD` through `(range n).map f`. -/
theorem getD_map_range (f : ℕ → ℚ) (n i : ℕ) (h : i < n) :
    ((List.range n).map f).getD i 0 = f i := by
  simp [List.getD_eq_getElem?_getD, List.getElem?_map, List.getElem?_range, h]

/-- `getD` into the left part of an append. -/
theorem getD_append_left (l1 l2 : List ℚ) (i : ℕ) (h : i < l1.length) :
    (l1 ++ l2).getD i 0 = l1.getD i 0 := by
  simp [List.getD_eq_getElem?_getD, List.getElem?_append, h]

/-- `getD` through `take`. -/
theorem getD_take (l : List ℚ) (i n : ℕ) (h : i < n) :
    (l.take n).getD i 0 = l.getD i 0 := by
  simp [List.getD_eq_getElem?_getD, List.getElem?_take, h]

/-- Reading cell `(r, c)` of the packed 8×8 grid. -/
theorem gridGet_toGrid (x : List ℚ) (r c : ℕ) (hr : r < 8) (hc : c < 8) :
    gridGet (toGrid x) r c = x.getD (channelIdx r c) 0 := by
  unfold gridGet toGrid
  have hidx : r * 8 + c < 64 := by omega
  rw [getD_map_range _ _ _ hidx]
  have h1 : (r * 8 + c) / 8 = r := by omega
  have h2 : (r * 8 + c) % 8 = c := by omega
  rw [h1, h2]

/-- Writing then reading the same cell. -/
theorem gridGet_gridSet_self (g : List ℚ) (r c : ℕ) (v : ℚ)
    (h : r * 8 + c < g.length) : gridGet (gridSet g r c v) r c = v := by
  unfold gridGet gridSet
  simp [List.getD_eq_getElem?_getD, List.getElem?_set_self, h]

/-- A visit at a different cell leaves `(r, c)` unchanged. -/
theorem repairStep_gridGet_ne (thr med : ℚ) (g : List ℚ) (q p : ℕ × ℕ)
    (h : q.1 * 8 + q.2 ≠ p.1 * 8 + p.2) :
    gridGet (repairStep thr med g q) p.1 p.2 = gridGet g p.1 p.2 := by
  unfold repairStep gridSet gridGet
  split
  · simp [List.getD_eq_getElem?_getD, List.getElem?_set_ne h]
  · rfl

/-- A sweep over visits that all miss cell `p` leaves `p` unchanged. -/
theorem foldl_repairStep_untouched (thr med : ℚ) :
    ∀ (l : List (ℕ × ℕ)) (g : List ℚ) (p : ℕ × ℕ),
      (∀ q ∈ l, q.1 * 8 + q.2 ≠ p.1 * 8 + p.2) →
      gridGet (l.foldl (repairStep thr med) g) p.1 p.2 = gridGet g p.1 p.2 := by
  intro l
  induction l with
  | nil => intro g p _; rfl
  | cons q l ih =>
    intro g p h
    rw [List.foldl_cons, ih _ _ (fun x hx => h x (List.mem_cons_of_mem q hx)),
      repairStep_gridGet_ne _ _ _ _ _ (h q (List.mem_cons_self q l))]

/-- A sweep never lowers its hands on a cell already at or above the
threshold: the cell keeps its value. -/
theorem foldl_repairStep_of_ge (thr med : ℚ) :
    ∀ (l : List (ℕ × ℕ)) (g : List ℚ) (p : ℕ × ℕ),
      (∀ q ∈ l, q.1 < 8 ∧ q.2 < 8) → p.1 < 8 → p.2 < 8 →
      thr ≤ gridGet g p.1 p.2 →
      gridGet (l.foldl (repairStep thr med) g) p.1 p.2 = gridGet g p.1 p.2 := by
  intro l
  induction l with
  | nil => intro g p _ _ _ _; rfl
  | cons q l ih =>
    intro g p hb hr hc hge
    rw [List.foldl_cons]
    by_cases hq : q.1 * 8 + q.2 = p.1 * 8 + p.2
    · have hqb := hb q (List.mem_cons_self q l)
      have hqp : q = p := by
        cases q with
        | mk q1 q2 =>
          cases p with
          | mk p1 p2 =>
            simp only at hq hqb hr hc ⊢
            have : q2 = p2 ∧ q1 = p1 := by omega
            simp [this.1, this.2]
      subst hqp
      have hstep : repairStep thr med g q = g := by
        unfold repairStep
        rw [if_neg (not_lt.mpr hge)]
      rw [hstep]
      exact ih g q (fun x hx => hb x (List.mem_cons_of_mem q hx)) hr hc hge
    · have huntouched := repairStep_gridGet_ne thr med g q p hq
      rw [ih _ _ (fun x hx => hb x (List.mem_cons_of_mem q hx)) hr hc
        (by rw [huntouched]; exact hge), huntouched]

/-- C4: for an MVC vector of at least 64 channels, the spatial repair
pass never modifies a channel among the first 64 whose value is already
`≥ 10%` of the 64-channel median (part 1); a cell below that threshold is
replaced by the mean of those of its 3×3 neighbors at or above the
threshold — read from the in-place grid state at its visit — or by the
median when no neighbor qualifies (part 2). -/
theorem c4_spatial_repair (m : List ℚ) (hlen : 64 ≤ m.length) :
    (∀ i, i < 64 → lowThreshold m ≤ m.getD i 0 →
        (fixLowChannelsSpatial m).getD i 0 = m.getD i 0)
    ∧ ∀ p ∈ gridVisits,
        gridGet (toGrid (m.take 64)) p.1 p.2 < lowThreshold m →
          gridGet (repairedGrid m) p.1 p.2
            = repairValue (lowThreshold m) (median64 m) (repairedGridUpTo m p) p.1 p.2 := by
  constructor
  · intro i hi hge
    unfold fixLowChannelsSpatial
    rw [if_neg (by omega)]
    rw [getD_append_left _ _ i (by simpa using hi), getD_map_range _ _ _ hi]
    have hr : 7 - i % 8 < 8 := by omega
    have hc : i / 8 < 8 := by omega
    have hidx : channelIdx (7 - i % 8) (i / 8) = i := by unfold channelIdx; omega
    have h0 : gridGet (toGrid (m.take 64)) (7 - i % 8) (i / 8) = m.getD i 0 := by
      rw [gridGet_toGrid _ _ _ hr hc, hidx, getD_take _ _ _ hi]
    unfold repairedGrid
    have hthr : lowThreshold m ≤ gridGet (toGrid (m.take 64)) (7 - i % 8) (i / 8) := by
      rw [h0]; exact hge
    exact (foldl_repairStep_of_ge (lowThreshold m) (median64 m) gridVisits
      (toGrid (m.take 64)) (7 - i % 8, i / 8)
      (fun q hq => (gridVisits_mem_iff q).mp hq) hr hc hthr).trans h0
  · intro p hp hlow
    obtain ⟨t, hdecomp, hpt⟩ := takeWhile_ne_decomp gridVisits p hp gridVisits_nodup
    obtain ⟨hpr, hpc⟩ := (gridVisits_mem_iff p).mp hp
    have hidx_ne : ∀ q : ℕ × ℕ, q ∈ gridVisits → q ≠ p →
        q.1 * 8 + q.2 ≠ p.1 * 8 + p.2 := by
      intro q hq hne heq
      obtain ⟨h1, h2⟩ := (gridVisits_mem_iff q).mp hq
      apply hne
      cases q with
      | mk q1 q2 =>
        cases p with
        | mk p1 p2 =>
          simp only at h1 h2 heq hpr hpc ⊢
          have : q1 = p1 ∧ q2 = p2 := by omega
          simp [this.1, this.2]
    have hne_tw : ∀ q ∈ gridVisits.takeWhile (fun q => decide (q ≠ p)),
        q.1 * 8 + q.2 ≠ p.1 * 8 + p.2 := by
      intro q hq
      have hmemv : q ∈ gridVisits := by
        rw [hdecomp]
        exact List.mem_append_left _ hq
      have hqp : q ≠ p := by simpa using mem_of_takeWhile _ _ _ hq
      exact hidx_ne q hmemv hqp
    have hne_t : ∀ q ∈ t, q.1 * 8 + q.2 ≠ p.1 * 8 + p.2 := by
      intro q hq
      have hmemv : q ∈ gridVisits := by
        rw [hdecomp]
        exact List.mem_append_right _ (List.mem_cons_of_mem p hq)
      have hqp : q ≠ p := fun h => hpt (h ▸ hq)
      exact hidx_ne q hmemv hqp
    have hgUp : gridGet (repairedGridUpTo m p) p.1 p.2
        = gridGet (toGrid (m.take 64)) p.1 p.2 := by
      unfold repairedGridUpTo
      exact foldl_repairStep_untouched _ _ _ _ _ hne_tw
    have hlt : gridGet (repairedGridUpTo m p) p.1 p.2 < lowThreshold m := by
      rw [hgUp]; exact hlow
    have hup_eq : List.foldl (repairStep (lowThreshold m) (median64 m))
        (toGrid (m.take 64)) (gridVisits.takeWhile (fun q => decide (q ≠ p)))
        = repairedGridUpTo m p := rfl
    unfold repairedGrid
    conv_lhs => rw [hdecomp]
    rw [List.foldl_append, hup_eq, List.foldl_cons,
      foldl_repairStep_untouched _ _ _ _ _ hne_t]
    have hstep : repairStep (lowThreshold m) (median64 m) (repairedGridUpTo m p) p
        = gridSet (repairedGridUpTo m p) p.1 p.2
            (repairValue (lowThreshold m) (median64 m) (repairedGridUpTo m p) p.1 p.2) := by
      unfold repairStep
      rw [if_pos hlt]
    rw [hstep]
    apply gridGet_gridSet_self
    have : (repairedGridUpTo m p).length = 64 := by
      unfold repairedGridUpTo
      rw [foldl_repairStep_length, toGrid_length]
    omega

/-- Witness for C4: a healthy all-equal 64-channel MVC vector; channel 0
is at the median, far above the 10% threshold, and is untouched. -/
theorem c4_spatial_repair_witness :
    64 ≤ (List.replicate 64 (8 : ℚ)).length
    ∧ (0 : ℕ) < 64
    ∧ lowThreshold (List.replicate 64 (8 : ℚ))
        ≤ (List.replicate 64 (8 : ℚ)).getD 0 0
    ∧ (fixLowChannelsSpatial (List.replicate 64 (8 : ℚ))).getD 0 0
        = (List.replicate 64 (8 : ℚ)).getD 0 0 := by
  have hthr : lowThreshold (List.replicate 64 (8 : ℚ))
      ≤ (List.replicate 64 (8 : ℚ)).getD 0 0 := by
    norm_num [lowThreshold, median64, medianOf, isort, insertSorted]
  exact ⟨by simp, by norm_num, hthr,
    (c4_spatial_repair (List.replicate 64 (8 : ℚ)) (by simp)).1 0 (by norm_num) hthr⟩

/-- `getD` past an appended block of known length. -/
theorem getD_append_at {α : Type} (l1 l2 : List α) (d : α) (j : ℕ) :
    (l1 ++ l2).getD (l1.length + j) d = l2.getD j d := by
  simp [List.getD_eq_getElem?_getD, List.getElem?_append_right]

/-- `getD` through `drop`. -/
theorem getD_drop_at {α : Type} (row : List α) (k j : ℕ) (d : α) :
    (row.drop k).getD j d = row.getD (k + j) d := by
  simp [List.getD_eq_getElem?_getD, List.getElem?_drop]

/-- C2 counterexample: buffer row `[7, 6]` with capacity 2 and cursor 1
(so `7` is the chronologically newest sample, at index 0), resized to
capacity 1 (`new_time·frequency = 1`). The code keeps the positional
tail `[6]` and cursor `min(1, 1) = 1`; the claimed resize would keep the
newest sample `[7]` with cursor `1 mod 1 = 0`. -/
theorem c2_resize_counterexample :
    changePlotTime 1 1 ⟨[[7, 6]], 1⟩ = ⟨[[6]], 1⟩
    ∧ specResize 1 ⟨[[7, 6]], 1⟩ = ⟨[[7]], 0⟩
    ∧ changePlotTime 1 1 ⟨[[7, 6]], 1⟩ ≠ specResize 1 ⟨[[7, 6]], 1⟩ := by
  have hnc : (pyInt ((1 : ℚ) * 1)).toNat = 1 := by
    have h : pyInt ((1 : ℚ) * 1) = 1 := by norm_num [pyInt]
    rw [h]; rfl
  have h1 : changePlotTime 1 1 ⟨[[7, 6]], 1⟩ = ⟨[[6]], 1⟩ := by
    simp only [changePlotTime, hnc]
    decide
  have h2 : specResize 1 ⟨[[7, 6]], 1⟩ = ⟨[[7]], 0⟩ := by decide
  refine ⟨h1, h2, ?_⟩
  rw [h1, h2]
  decide

/-- One row of the resize: zero prefix plus the positional tail of the
old row. -/
theorem resizeRow (row : List ℤ) (newCap cap : ℕ) (hlen : row.length = cap)
    (hcopy : 0 < min newCap cap) :
    setLastCols (List.replicate newCap 0) (min newCap cap) (lastCols (min newCap cap) row)
      = List.replicate (newCap - min newCap cap) 0 ++ row.drop (cap - min newCap cap) := by
  unfold setLastCols lastCols
  rw [if_neg hcopy.ne', if_neg hcopy.ne', hlen, List.length_replicate, List.take_replicate]
  rw [Nat.min_eq_left (Nat.sub_le _ _)]

/-- `getD` past a replicated block. -/
theorem getD_replicate_append_at {α : Type} (n : ℕ) (a d : α) (l2 : List α) (j : ℕ) :
    (List.replicate n a ++ l2).getD (n + j) d = l2.getD j d := by
  simp [List.getD_eq_getElem?_getD, List.getElem?_append_right, Nat.add_sub_cancel_left]

/-- C2 (amended): resizing keeps, per channel, the last
`min(old_capacity, new_capacity)` array positions of the old buffer
(the positional tail, regardless of the write cursor), zero-fills the
leading columns, and sets the cursor to
`min(old_cursor, new_capacity)`. -/
theorem c2_resize_positional_tail (newTime freq : ℚ) (t : TrackState) (newCap cap : ℕ)
    (hcap : (pyInt (newTime * freq)).toNat = newCap)
    (hhead : (t.buffer.headD []).length = cap)
    (hrows : ∀ row ∈ t.buffer, row.length = cap)
    (hnc : 0 < newCap) (hoc : 0 < cap) :
    (changePlotTime newTime freq t).bufferIndex = min t.bufferIndex newCap
    ∧ (changePlotTime newTime freq t).buffer
        = t.buffer.map (fun row =>
            List.replicate (newCap - min newCap cap) 0 ++ row.drop (cap - min newCap cap))
    ∧ ∀ row ∈ t.buffer, ∀ j, j < min newCap cap →
        (List.replicate (newCap - min newCap cap) (0 : ℤ)
            ++ row.drop (cap - min newCap cap)).getD (newCap - min newCap cap + j) 0
          = row.getD (cap - min newCap cap + j) 0 := by
  have hcopy : 0 < min newCap cap := lt_min hnc hoc
  refine ⟨?_, ?_, ?_⟩
  · simp [changePlotTime, hcap]
  · simp only [changePlotTime, hcap, hhead]
    apply List.map_congr_left
    intro row hrow
    exact resizeRow row newCap cap (hrows row hrow) hcopy
  · intro row hrow j hj
    rw [getD_replicate_append_at, getD_drop_at]

/-- Witness for the amended C2 at a concrete resize of a full-capacity
track (capacity 2 to capacity 2). -/
theorem c2_resize_positional_tail_witness :
    (pyInt ((1 : ℚ) * 2)).toNat = 2
    ∧ ((changePlotTime 1 2 ⟨[[3, 4]], 0⟩).bufferIndex = min 0 2
       ∧ (changePlotTime 1 2 ⟨[[3, 4]], 0⟩).buffer
           = ([[3, 4]] : List (List ℤ)).map (fun row =>
               List.replicate (2 - min 2 2) 0 ++ row.drop (2 - min 2 2))
       ∧ ∀ row ∈ ([[3, 4]] : List (List ℤ)), ∀ j, j < min 2 2 →
           (List.replicate (2 - min 2 2) (0 : ℤ)
               ++ row.drop (2 - min 2 2)).getD (2 - min 2 2 + j) 0
             = row.getD (2 - min 2 2 + j) 0) := by
  have h1 : (pyInt ((1 : ℚ) * 2)).toNat = 2 := by
    have h : pyInt ((1 : ℚ) * 2) = 2 := by norm_num [pyInt]
    rw [h]; rfl
  exact ⟨h1, c2_resize_positional_tail 1 2 ⟨[[3, 4]], 0⟩ 2 2 h1 (by decide)
    (by decide) (by norm_num) (by norm_num)⟩

/-- `int()` of a natural-number cast. -/
theorem pyInt_natCast (n : ℕ) : pyInt (n : ℚ) = n := by
  unfold pyInt
  rw [if_neg (not_lt.mpr (Nat.cast_nonneg n)), Int.floor_natCast]

/-- `int()` of an integer cast. -/
theorem pyInt_intCast (z : ℤ) : pyInt (z : ℚ) = z := by
  unfold pyInt
  split <;> simp [Int.ceil_intCast, Int.floor_intCast]

/-- `int(min_duration_samples * 0.5)` is the natural half. -/
theorem pyInt_half_nat (minDur : ℕ) : pyInt ((minDur : ℚ) * (1 / 2)) = (minDur / 2 : ℕ) := by
  have h0 : (0 : ℚ) ≤ (minDur : ℚ) * (1 / 2) := by positivity
  unfold pyInt
  rw [if_neg (not_lt.mpr h0), mul_one_div]
  rw [show ((minDur : ℚ) / 2) = (((minDur : ℤ) : ℚ) / ((2 : ℕ) : ℚ)) by push_cast; ring]
  rw [Rat.floor_intCast_div_natCast, Int.ofNat_ediv]

/-- The gap `int((next_start - current_end) * fs)` between contractions
at sample indices `e1` and `a2` is exactly `a2 - e1`. -/
theorem gapSamples_eq (a2 e1 : ℕ) (fs : ℚ) (hfs : fs ≠ 0) (h : e1 ≤ a2) :
    pyInt (((a2 : ℚ) / fs - (e1 : ℚ) / fs) * fs) = ((a2 - e1 : ℕ) : ℤ) := by
  have hq : ((a2 : ℚ) / fs - (e1 : ℚ) / fs) * fs = (((a2 - e1 : ℕ) : ℤ) : ℚ) := by
    field_simp
  rw [hq, pyInt_intCast]

/-- `int(time * fs)` recovers the sample index a time was derived from. -/
theorem sliceIdx_eq (a : ℕ) (fs : ℚ) (hfs : fs ≠ 0) :
    (pyInt ((a : ℚ) / fs * fs)).toNat = a := by
  rw [div_mul_cancel₀ _ hfs, pyInt_natCast, Int.toNat_natCast]

/-- C8: the merge pass scans in chronological order and merges two
consecutive accepted contractions exactly when their gap, converted to
samples via `fs`, is at most `merge_gap_samples` — whose default is
`max(3, ⌊0.5·min_duration_samples⌋)` — recomputing the peak over the
merged sample region; a larger gap keeps them separate. -/
theorem c8_merge_pass (rms : List ℚ) (fs : ℚ) (hfs : 0 < fs) (minDur : ℕ)
    (a1 e1 a2 e2 : ℕ) (p1 p2 : ℚ) (h12 : e1 ≤ a2) :
    defaultMergeGap minDur = max 3 (minDur / 2)
    ∧ (((a2 - e1 : ℕ) : ℤ) ≤ (defaultMergeGap minDur : ℤ) →
        mergeContractions rms fs minDur none
            [((a1 : ℚ) / fs, (e1 : ℚ) / fs, p1), ((a2 : ℚ) / fs, (e2 : ℚ) / fs, p2)]
          = [((a1 : ℚ) / fs, (e2 : ℚ) / fs, listMax ((rms.take e2).drop a1))])
    ∧ ((defaultMergeGap minDur : ℤ) < ((a2 - e1 : ℕ) : ℤ) →
        mergeContractions rms fs minDur none
            [((a1 : ℚ) / fs, (e1 : ℚ) / fs, p1), ((a2 : ℚ) / fs, (e2 : ℚ) / fs, p2)]
          = [((a1 : ℚ) / fs, (e1 : ℚ) / fs, p1), ((a2 : ℚ) / fs, (e2 : ℚ) / fs, p2)]) := by
  have hfs0 : fs ≠ 0 := ne_of_gt hfs
  have hgap := gapSamples_eq a2 e1 fs hfs0 h12
  have hmg : defaultMergeGap minDur = max 3 (minDur / 2) := by
    unfold defaultMergeGap
    rw [pyInt_half_nat, Int.toNat_natCast]
  refine ⟨hmg, fun hle => ?_, fun hgt => ?_⟩
  · unfold mergeContractions
    rw [if_neg (by norm_num)]
    simp only [Option.getD_none, mergeScan, hgap]
    rw [if_pos hle, sliceIdx_eq a1 fs hfs0, sliceIdx_eq e2 fs hfs0]
  · unfold mergeContractions
    rw [if_neg (by norm_num)]
    simp only [Option.getD_none, mergeScan, hgap]
    rw [if_neg (not_le.mpr hgt)]

/-- Witness for C8: `fs = 1`, contractions over samples `[0,1)` and
`[2,4)` with gap 1 ≤ default merge gap 3: they merge with the peak
recomputed over samples 0 to 4. -/
theorem c8_merge_pass_witness :
    (0 : ℚ) < 1 ∧ (1 : ℕ) ≤ 2
    ∧ mergeContractions [0, 1, 2, 3, 4, 5] 1 2 none
        [(((0 : ℕ) : ℚ) / 1, ((1 : ℕ) : ℚ) / 1, 9), (((2 : ℕ) : ℚ) / 1, ((4 : ℕ) : ℚ) / 1, 9)]
      = [(((0 : ℕ) : ℚ) / 1, ((4 : ℕ) : ℚ) / 1,
          listMax ((([0, 1, 2, 3, 4, 5] : List ℚ).take 4).drop 0))] := by
  have h := c8_merge_pass [0, 1, 2, 3, 4, 5] 1 (by norm_num) 2 0 1 2 4 9 9 (by norm_num)
  refine ⟨by norm_num, by norm_num, ?_⟩
  exact h.2.1 (by rw [h.1]; decide)

/-- Writing an empty segment is a no-op. -/
theorem setSlice_nil (l : List ℤ) (s : ℕ) :
    setSlice l s [] = l := by
  unfold setSlice
  simp [List.take_append_drop]

/-- A slice write below a cons steps down the index. -/
theorem setSlice_cons_cons (x : ℤ) (xs : List ℤ) (s : ℕ) (seg : List ℤ) :
    setSlice (x :: xs) (s + 1) seg = x :: setSlice xs s seg := by
  unfold setSlice
  have h : s + 1 + seg.length = (s + seg.length) + 1 := by omega
  rw [List.take_succ_cons, h, List.drop_succ_cons]
  rfl

/-- Peeling one element off a slice write. -/
theorem setSlice_cons (l : List ℤ) (s : ℕ) (v : ℤ) (vs : List ℤ) (hs : s < l.length) :
    setSlice l s (v :: vs) = setSlice (l.set s v) (s + 1) vs := by
  induction l generalizing s with
  | nil => simp at hs
  | cons x xs ih =>
    cases s with
    | zero =>
      unfold setSlice
      rw [show 1 + vs.length = vs.length + 1 from Nat.add_comm 1 vs.length]
      simp [List.drop_succ_cons]
    | succ s =>
      rw [setSlice_cons_cons, List.set_cons_succ, setSlice_cons_cons,
        ih s (by simpa using hs)]

/-- A cyclic write leaves the buffer size unchanged. -/
theorem cyclicWrite_length (cap : ℕ) :
    ∀ (pkt l : List ℤ) (i : ℕ), (cyclicWrite cap l i pkt).length = l.length := by
  intro pkt
  induction pkt with
  | nil => intro l i; rfl
  | cons v vs ih => intro l i; rw [cyclicWrite, ih, List.length_set]

/-- A contiguous in-bounds slice write is a cyclic write. -/
theorem setSlice_eq_cyclicWrite (cap : ℕ) :
    ∀ (pkt l : List ℤ) (s : ℕ), l.length = cap → s + pkt.length ≤ cap →
      setSlice l s pkt = cyclicWrite cap l s pkt := by
  intro pkt
  induction pkt with
  | nil => intro l s _ _; exact setSlice_nil l s
  | cons v vs ih =>
    intro l s hl hfit
    have hs : s < l.length := by simp [List.length_cons] at hfit; omega
    rw [setSlice_cons l s v vs hs, cyclicWrite,
      Nat.mod_eq_of_lt (by omega : s < cap)]
    exact ih (l.set s v) (s + 1) (by simp [hl]) (by simp [List.length_cons] at hfit; omega)

/-- Writing a concatenation is writing the parts in sequence. -/
theorem cyclicWrite_append (cap : ℕ) :
    ∀ (a b l : List ℤ) (i : ℕ),
      cyclicWrite cap l i (a ++ b) = cyclicWrite cap (cyclicWrite cap l i a) (i + a.length) b := by
  intro a
  induction a with
  | nil => intro b l i; simp [cyclicWrite]
  | cons v vs ih =>
    intro b l i
    rw [List.cons_append, cyclicWrite, cyclicWrite, ih]
    have h : i + (v :: vs).length = i + 1 + vs.length := by simp [List.length_cons]; omega
    rw [h]

/-- A cyclic write only depends on the cursor modulo the capacity. -/
theorem cyclicWrite_mod (cap : ℕ) :
    ∀ (pkt l : List ℤ) (i j : ℕ), i % cap = j % cap →
      cyclicWrite cap l i pkt = cyclicWrite cap l j pkt := by
  intro pkt
  induction pkt with
  | nil => intro l i j _; rfl
  | cons v vs ih =>
    intro l i j h
    rw [cyclicWrite, cyclicWrite, h]
    exact ih _ (i + 1) (j + 1) (by rw [Nat.add_mod i 1 cap, Nat.add_mod j 1 cap, h])

/-- The two slice writes of `feedRow` (wrapped or contiguous) are the
cyclic write of the packet at the cursor. -/
theorem feedRow_eq_cyclicWrite (cap idx p : ℕ) (row pkt : List ℤ)
    (hl : row.length = cap) (hp : pkt.length = p) (hidx : idx ≤ cap)
    (hfit : idx + p ≤ 2 * cap) :
    feedRow cap idx p row pkt = cyclicWrite cap row idx pkt := by
  unfold feedRow
  by_cases hcase : cap < idx + p
  · rw [if_pos hcase]
    have hinner : (if 0 < cap - idx then setSlice row idx (pkt.take (cap - idx)) else row)
        = cyclicWrite cap row idx (pkt.take (cap - idx)) := by
      by_cases hes0 : 0 < cap - idx
      · rw [if_pos hes0]
        exact setSlice_eq_cyclicWrite cap _ row idx hl
          (by rw [List.length_take]; omega)
      · rw [if_neg hes0]
        have h0 : cap - idx = 0 := by omega
        rw [h0, List.take_zero]
        rfl
    show setSlice (if 0 < cap - idx then setSlice row idx (pkt.take (cap - idx)) else row)
        0 (pkt.drop (cap - idx)) = cyclicWrite cap row idx pkt
    rw [hinner]
    have hlen1 : (cyclicWrite cap row idx (pkt.take (cap - idx))).length = cap := by
      rw [cyclicWrite_length]; exact hl
    rw [setSlice_eq_cyclicWrite cap (pkt.drop (cap - idx)) _ 0 hlen1
      (by rw [List.length_drop]; omega)]
    conv_rhs => rw [← List.take_append_drop (cap - idx) pkt]
    rw [cyclicWrite_append]
    apply cyclicWrite_mod
    have htk : (pkt.take (cap - idx)).length = cap - idx := by
      rw [List.length_take]; omega
    rw [htk, Nat.add_sub_cancel' hidx, Nat.zero_mod, Nat.mod_self]
  · rw [if_neg hcase]
    exact setSlice_eq_cyclicWrite cap pkt row idx hl (by omega)

/-- `zipWith` congruence on members. -/
theorem zipWith_congr_mem {α β γ : Type} (f g : α → β → γ) :
    ∀ (l1 : List α) (l2 : List β), (∀ x ∈ l1, ∀ y ∈ l2, f x y = g x y) →
      List.zipWith f l1 l2 = List.zipWith g l1 l2 := by
  intro l1
  induction l1 with
  | nil => intro l2 _; rfl
  | cons x xs ih =>
    intro l2 h
    cases l2 with
    | nil => rfl
    | cons y ys =>
      rw [List.zipWith_cons_cons, List.zipWith_cons_cons,
        h x (List.mem_cons_self x xs) y (List.mem_cons_self y ys),
        ih ys (fun a ha b hb => h a (List.mem_cons_of_mem x ha) b (List.mem_cons_of_mem y hb))]

/-- Members of a `zipWith` come from paired members. -/
theorem mem_zipWith {α β γ : Type} (f : α → β → γ) :
    ∀ (l1 : List α) (l2 : List β) (z : γ), z ∈ List.zipWith f l1 l2 →
      ∃ x, x ∈ l1 ∧ ∃ y, y ∈ l2 ∧ z = f x y := by
  intro l1
  induction l1 with
  | nil => intro l2 z h; simp at h
  | cons x xs ih =>
    intro l2 z h
    cases l2 with
    | nil => simp at h
    | cons y ys =>
      rw [List.zipWith_cons_cons] at h
      rcases List.mem_cons.mp h with rfl | h
      · exact ⟨x, List.mem_cons_self x xs, y, List.mem_cons_self y ys, rfl⟩
      · obtain ⟨a, ha, b, hb, rfl⟩ := ih ys z h
        exact ⟨a, List.mem_cons_of_mem x ha, b, List.mem_cons_of_mem y hb, rfl⟩

/-- `Track.feed` succeeds whenever the (possibly wrapped) write fits, and
acts as a cyclic write at the cursor; the new cursor is bounded by the
capacity and by `cursor + packet_size`, and is that sum modulo the
capacity. -/
theorem feed_sound (t : TrackState) (packet : List (List ℤ)) (cap p : ℕ)
    (hne : t.buffer ≠ [])
    (hrows : ∀ row ∈ t.buffer, row.length = cap)
    (hpkts : ∀ r ∈ packet, r.length = p)
    (hcount : packet.length = t.buffer.length)
    (hidx : t.bufferIndex ≤ cap) (hcap : 0 < cap)
    (hfit : t.bufferIndex + p ≤ 2 * cap) :
    ∃ t1, t.feed packet = some t1
      ∧ t1.buffer = List.zipWith (fun row pkt => cyclicWrite cap row t.bufferIndex pkt)
          t.buffer packet
      ∧ t1.bufferIndex ≤ cap
      ∧ t1.bufferIndex ≤ t.bufferIndex + p
      ∧ t1.bufferIndex % cap = (t.bufferIndex + p) % cap := by
  obtain ⟨r0, rs, hbe⟩ : ∃ r0 rs, t.buffer = r0 :: rs := by
    cases hbuf : t.buffer with
    | nil => exact absurd hbuf hne
    | cons a l => exact ⟨a, l, rfl⟩
  obtain ⟨q0, qs, hpe⟩ : ∃ q0 qs, packet = q0 :: qs := by
    cases hpk : packet with
    | nil => rw [hpk, hbe] at hcount; simp at hcount
    | cons a l => exact ⟨a, l, rfl⟩
  have hcapd : (t.buffer.headD []).length = cap := by
    rw [hbe]
    exact hrows r0 (by rw [hbe]; exact List.mem_cons_self _ _)
  have hpd : (packet.headD []).length = p := by
    rw [hpe]
    exact hpkts q0 (by rw [hpe]; exact List.mem_cons_self _ _)
  have hz : List.zipWith (feedRow cap t.bufferIndex p) t.buffer packet
      = List.zipWith (fun row pkt => cyclicWrite cap row t.bufferIndex pkt)
          t.buffer packet := by
    apply zipWith_congr_mem
    intro x hx y hy
    exact feedRow_eq_cyclicWrite cap t.bufferIndex p x y (hrows x hx) (hpkts y hy) hidx hfit
  by_cases hwrap : cap < t.bufferIndex + p
  · refine ⟨⟨List.zipWith (fun row pkt => cyclicWrite cap row t.bufferIndex pkt)
        t.buffer packet, p - (cap - t.bufferIndex)⟩, ?_, rfl,
      by show p - (cap - t.bufferIndex) ≤ cap; omega,
      by show p - (cap - t.bufferIndex) ≤ t.bufferIndex + p; omega, ?_⟩
    · simp only [TrackState.feed]
      rw [hcapd, hpd, if_pos hwrap,
        if_neg (show ¬ cap < p - (cap - t.bufferIndex) by omega), hz]
    · have h1 : p - (cap - t.bufferIndex) = (t.bufferIndex + p) - cap := by omega
      rw [h1]
      conv_rhs => rw [← Nat.sub_add_cancel (le_of_lt hwrap)]
      rw [Nat.add_mod_right]
  · refine ⟨⟨List.zipWith (fun row pkt => cyclicWrite cap row t.bufferIndex pkt)
        t.buffer packet, (t.bufferIndex + p) % cap⟩, ?_, rfl,
      le_of_lt (Nat.mod_lt _ hcap), Nat.mod_le _ _, Nat.mod_mod_of_dvd _ dvd_rfl⟩
    simp only [TrackState.feed]
    rw [hcapd, hpd, if_neg hwrap, hz]

/-- Two successive per-row cyclic writes fuse into one write of the
column-wise concatenation, when the second cursor is the first cursor
advanced by the first packet's width (modulo the capacity). -/
theorem zipWith_cyclic_fuse (cap pa i i1 : ℕ) (hmod : i1 % cap = (i + pa) % cap) :
    ∀ (buf a b : List (List ℤ)), (∀ r ∈ a, r.length = pa) →
      List.zipWith (fun row pkt => cyclicWrite cap row i1 pkt)
          (List.zipWith (fun row pkt => cyclicWrite cap row i pkt) buf a) b
        = List.zipWith (fun row pkt => cyclicWrite cap row i pkt) buf (concatCols a b) := by
  intro buf
  induction buf with
  | nil => intro a b _; cases a <;> cases b <;> rfl
  | cons r rs ih =>
    intro a b ha
    cases a with
    | nil => cases b <;> rfl
    | cons x xs =>
      cases b with
      | nil => rfl
      | cons y ys =>
        simp only [concatCols, List.zipWith_cons_cons]
        rw [ih xs ys (fun rr hr => ha rr (List.mem_cons_of_mem x hr))]
        have hrow : cyclicWrite cap (cyclicWrite cap r i x) i1 y
            = cyclicWrite cap r i (x ++ y) := by
          rw [cyclicWrite_append]
          apply cyclicWrite_mod
          rw [ha x (List.mem_cons_self x xs)]
          exact hmod
        rw [hrow]
        rfl

/-- C7 (amended): feeding `a` then `b` equals feeding `concat(a, b)` in
buffer contents, with write cursors congruent modulo the capacity,
provided the concatenated write also fits the wrap-around split
(`cursor + |a| + |b| ≤ 2·capacity`); each feed succeeds. -/
theorem c7_feed_concat (t : TrackState) (a b : List (List ℤ)) (cap pa pb : ℕ)
    (hne : t.buffer ≠ [])
    (hrows : ∀ row ∈ t.buffer, row.length = cap)
    (ha : ∀ r ∈ a, r.length = pa) (hb : ∀ r ∈ b, r.length = pb)
    (hacount : a.length = t.buffer.length) (hbcount : b.length = t.buffer.length)
    (hidx : t.bufferIndex ≤ cap) (hcap : 0 < cap)
    (hfit : t.bufferIndex + pa + pb ≤ 2 * cap) :
    ∃ t1 t2 t3,
      t.feed a = some t1 ∧ t1.feed b = some t2
      ∧ t.feed (concatCols a b) = some t3
      ∧ t3.buffer = t2.buffer
      ∧ t3.bufferIndex % cap = t2.bufferIndex % cap := by
  obtain ⟨t1, hf1, hbuf1, hle1, hsum1, hmod1⟩ :=
    feed_sound t a cap pa hne hrows ha hacount hidx hcap (by omega)
  have hlen1 : t1.buffer.length = t.buffer.length := by
    rw [hbuf1, List.length_zipWith, hacount, Nat.min_self]
  have hne1 : t1.buffer ≠ [] := by
    intro h
    apply hne
    rw [h] at hlen1
    simp only [List.length_nil] at hlen1
    exact List.length_eq_zero.mp hlen1.symm
  have hrows1 : ∀ row ∈ t1.buffer, row.length = cap := by
    intro row hrow
    rw [hbuf1] at hrow
    obtain ⟨x, hx, y, hy, rfl⟩ := mem_zipWith _ _ _ _ hrow
    rw [cyclicWrite_length]
    exact hrows x hx
  obtain ⟨t2, hf2, hbuf2, hle2, hsum2, hmod2⟩ :=
    feed_sound t1 b cap pb hne1 hrows1 hb (hbcount.trans hlen1.symm) hle1 hcap (by omega)
  have hcc : ∀ r ∈ concatCols a b, r.length = pa + pb := by
    intro r hr
    obtain ⟨x, hx, y, hy, rfl⟩ := mem_zipWith _ _ _ _ hr
    rw [List.length_append, ha x hx, hb y hy]
  have hccount : (concatCols a b).length = t.buffer.length := by
    unfold concatCols
    rw [List.length_zipWith, hacount, hbcount, Nat.min_self]
  obtain ⟨t3, hf3, hbuf3, hle3, hsum3, hmod3⟩ :=
    feed_sound t (concatCols a b) cap (pa + pb) hne hrows hcc hccount hidx hcap (by omega)
  refine ⟨t1, t2, t3, hf1, hf2, hf3, ?_, ?_⟩
  · rw [hbuf3, hbuf2, hbuf1]
    exact (zipWith_cyclic_fuse cap pa t.bufferIndex t1.bufferIndex hmod1 t.buffer a b ha).symm
  · rw [hmod3, hmod2]
    conv_rhs => rw [← Nat.mod_add_mod, hmod1, Nat.mod_add_mod]
    rw [← Nat.add_assoc]

/-- C7 counterexample: capacity 3, cursor 2, and two 3-column packets.
Each packet's write fits (the wrap split handles it) and the sequential
feeds succeed, but feeding the concatenation raises a numpy broadcast
error (`packet_size - end_space = 5 > 3`): the claimed equivalence fails
as stated. -/
theorem c7_feed_concat_counterexample :
    (TrackState.feed ⟨[[0, 0, 0]], 2⟩ [[1, 2, 3]]).bind
        (fun t1 => t1.feed [[4, 5, 6]]) = some ⟨[[5, 6, 4]], 2⟩
    ∧ TrackState.feed ⟨[[0, 0, 0]], 2⟩ (concatCols [[1, 2, 3]] [[4, 5, 6]]) = none := by
  constructor <;> decide

/-- Witness for the amended C7: capacity 3, cursor 2, a 2-column and a
1-column packet. -/
theorem c7_feed_concat_witness :
    ∃ t1 t2 t3,
      TrackState.feed ⟨[[0, 0, 0]], 2⟩ [[1, 2]] = some t1
      ∧ t1.feed [[7]] = some t2
      ∧ TrackState.feed ⟨[[0, 0, 0]], 2⟩ (concatCols [[1, 2]] [[7]]) = some t3
      ∧ t3.buffer = t2.buffer ∧ t3.bufferIndex % 3 = t2.bufferIndex % 3 :=
  c7_feed_concat ⟨[[0, 0, 0]], 2⟩ [[1, 2]] [[7]] 3 2 1 (by decide) (by decide)
    (by decide) (by decide) (by decide) (by decide) (by decide) (by decide) (by decide)

/-- `struct.unpack` yields one word per byte pair. -/
theorem decodeShorts_length : ∀ (l : List ℕ), (decodeShorts l).length = l.length / 2
  | [] => rfl
  | [x] => by
    rw [show decodeShorts [x] = [] from rfl]
    norm_num
  | hi :: lo :: rest => by
    rw [show decodeShorts (hi :: lo :: rest) = decodeInt16 hi lo :: decodeShorts rest from rfl,
      List.length_cons, decodeShorts_length rest]
    simp only [List.length_cons]
    omega

/-- A whole frame of `nch * 2 * spp` bytes decodes without error. -/
theorem decodeFrame_ok (nch spp : ℕ) (hn : 0 < nch) (data : List ℕ)
    (hlen : data.length = nch * 2 * spp) :
    decodeFrame nch data = some (decodedFrame nch data) := by
  have hhalf : data.length / 2 = nch * spp := by
    rw [hlen, show nch * 2 * spp = nch * spp * 2 by ring]
    exact Nat.mul_div_cancel _ (by norm_num)
  unfold decodeFrame
  rw [if_neg, if_neg]
  · push_neg
    refine ⟨by omega, ?_⟩
    rw [decodeShorts_length, hhalf]
    exact Nat.mul_mod_right nch spp
  · rw [hlen, show nch * 2 * spp = 2 * (nch * spp) by ring]
    simp [Nat.mul_mod_right]

/-- One successful steady-state iteration of the receive loop: a read
that returns a full packet which decodes cleanly produces one frame and
continues. -/
theorem runLoop_step (nch : ℕ) (running : Bool) (fuel pb : ℕ) (stream : List ℕ)
    (a : ℕ) (avail : List ℕ) (f : Mat)
    (hlen : (stream.take (min pb a)).length = pb)
    (hne : stream.take (min pb a) ≠ [])
    (hdec : decodeFrame nch (stream.take (min pb a)) = some f) :
    runLoop nch running (fuel + 1) false pb stream (a :: avail)
      = f :: runLoop nch running fuel false pb (stream.drop (min pb a)) avail := by
  have hA : ¬ ((stream.take (min pb a)).isEmpty = true) := by
    intro hcontra
    apply hne
    cases h : stream.take (min pb a) with
    | nil => rfl
    | cons x xs => rw [h] at hcontra; simp [List.isEmpty] at hcontra
  have hB : ¬ ((stream.take (min pb a)).length ≠ pb) := by simp [hlen]
  simp only [runLoop, recvN, Bool.false_eq_true, if_false]
  rw [if_neg hA, if_neg hB]
  simp only [hdec]

/-- Steady state of the receive loop: with the packet size locked to
`nch*2*spp` and the network delivering exactly frame-sized reads, every
iteration decodes one frame, in arrival order. -/
theorem runLoop_aligned (nch spp : ℕ) (running : Bool) (hn : 0 < nch) (hs : 0 < spp) :
    ∀ (k : ℕ) (stream : List ℕ), stream.length = k * (nch * 2 * spp) →
      runLoop nch running (k + 1) false (nch * 2 * spp) stream
          (List.replicate k (nch * 2 * spp))
        = (List.range k).map (fun m =>
            decodedFrame nch ((stream.drop (m * (nch * 2 * spp))).take (nch * 2 * spp))) := by
  intro k
  induction k with
  | zero =>
    intro stream hlen
    obtain rfl : stream = [] := List.length_eq_zero.mp (by simpa using hlen)
    rfl
  | succ j ih =>
    intro stream hlen
    have hslen : (j + 1) * (nch * 2 * spp) = nch * 2 * spp + j * (nch * 2 * spp) := by ring
    have hstream_ge : nch * 2 * spp ≤ stream.length := by rw [hlen, hslen]; omega
    have htake_len : (stream.take (nch * 2 * spp)).length = nch * 2 * spp := by
      rw [List.length_take]; omega
    have heb2 : 2 ≤ nch * 2 * spp := by
      have h1 : 1 * 2 * 1 ≤ nch * 2 * spp :=
        Nat.mul_le_mul (Nat.mul_le_mul hn (Nat.le_refl 2)) hs
      simpa using h1
    have hne' : stream.take (nch * 2 * spp) ≠ [] := by
      intro h
      rw [h] at htake_len
      simp at htake_len
      omega
    have hdec := decodeFrame_ok nch spp hn (stream.take (nch * 2 * spp)) htake_len
    have hdrop_len : (stream.drop (nch * 2 * spp)).length = j * (nch * 2 * spp) := by
      rw [List.length_drop, hlen, hslen]; omega
    have hstep := ih (stream.drop (nch * 2 * spp)) hdrop_len
    rw [List.replicate_succ]
    rw [runLoop_step nch running (j + 1) (nch * 2 * spp) stream (nch * 2 * spp)
      (List.replicate j (nch * 2 * spp)) (decodedFrame nch (stream.take (nch * 2 * spp)))
      (by rw [Nat.min_self]; exact htake_len)
      (by rw [Nat.min_self]; exact hne')
      (by rw [Nat.min_self]; exact hdec)]
    rw [Nat.min_self, hstep, List.range_succ_eq_map, List.map_cons, List.map_map]
    have hhead : (stream.drop (0 * (nch * 2 * spp))).take (nch * 2 * spp)
        = stream.take (nch * 2 * spp) := by
      rw [Nat.zero_mul, List.drop_zero]
    rw [hhead]
    congr 1
    apply List.map_congr_left
    intro m _
    simp only [Function.comp]
    rw [List.drop_drop]
    have hm : nch * 2 * spp + m * (nch * 2 * spp) = (m + 1) * (nch * 2 * spp) := by ring
    rw [hm]

/-- The auto-detection iteration: the first read fixes `packet_bytes` to
its own length and the first packet is decoded from it. -/
theorem runLoop_first_step (nch : ℕ) (running : Bool) (fuel : ℕ) (stream : List ℕ)
    (a : ℕ) (avail : List ℕ) (f : Mat)
    (hne : stream.take (min 65536 a) ≠ [])
    (hdec : decodeFrame nch (stream.take (min 65536 a)) = some f) :
    runLoop nch running (fuel + 1) true 0 stream (a :: avail)
      = f :: runLoop nch running fuel false (stream.take (min 65536 a)).length
          (stream.drop (min 65536 a)) avail := by
  have hA : ¬ ((stream.take (min 65536 a)).isEmpty = true) := by
    intro hcontra
    apply hne
    cases h : stream.take (min 65536 a) with
    | nil => rfl
    | cons x xs => rw [h] at hcontra; simp [List.isEmpty] at hcontra
  simp only [runLoop, recvN]
  rw [if_pos trivial, if_neg hA]
  simp only [hdec]

/-- Shape of a cleanly decoded frame: `nch` rows of `spp` samples. -/
theorem decodedFrame_shape (nch spp : ℕ) (hn : 0 < nch) (data : List ℕ)
    (hlen : data.length = nch * 2 * spp) :
    (decodedFrame nch data).length = nch
    ∧ ∀ row ∈ decodedFrame nch data, row.length = spp := by
  have hhalf : data.length / 2 = nch * spp := by
    rw [hlen, show nch * 2 * spp = nch * spp * 2 by ring]
    exact Nat.mul_div_cancel _ (by norm_num)
  constructor
  · simp [decodedFrame]
  · intro row hrow
    unfold decodedFrame at hrow
    rw [List.mem_map] at hrow
    obtain ⟨c, _, rfl⟩ := hrow
    rw [List.length_map, List.length_range, decodeShorts_length, hhalf,
      Nat.mul_div_cancel_left _ hn]

/-- C1 (amended): when every socket read returns exactly one
`expected_bytes = nchannels·2·(frequency//16)` frame — so the
auto-detected packet size is the true frame size — the receiver yields
exactly `total/expected_bytes` decoded frames in arrival order, each of
shape `(nchannels, frequency//16)`. -/
theorem c1_aligned_reads (nch freq : ℕ) (running : Bool) (k : ℕ) (stream : List ℕ)
    (hn : 0 < nch) (hf : 16 ≤ freq) (hsmall : expectedBytes nch freq ≤ 65536)
    (hlen : stream.length = k * expectedBytes nch freq) :
    runModel nch running stream (List.replicate k (expectedBytes nch freq))
      = (List.range k).map (fun m =>
          decodedFrame nch ((stream.drop (m * expectedBytes nch freq)).take
            (expectedBytes nch freq)))
    ∧ ∀ f ∈ runModel nch running stream (List.replicate k (expectedBytes nch freq)),
        f.length = nch ∧ ∀ row ∈ f, row.length = freq / 16 := by
  have hs : 0 < freq / 16 := Nat.div_pos hf (by norm_num)
  have heb : expectedBytes nch freq = nch * 2 * (freq / 16) := rfl
  have hmain : runModel nch running stream (List.replicate k (expectedBytes nch freq))
      = (List.range k).map (fun m =>
          decodedFrame nch ((stream.drop (m * expectedBytes nch freq)).take
            (expectedBytes nch freq))) := by
    unfold runModel
    rw [List.length_replicate]
    cases k with
    | zero =>
      obtain rfl : stream = [] := List.length_eq_zero.mp (by simpa using hlen)
      rfl
    | succ j =>
      rw [heb] at hlen hsmall ⊢
      have hstream_ge : nch * 2 * (freq / 16) ≤ stream.length := by
        rw [hlen]
        calc nch * 2 * (freq / 16) = 1 * (nch * 2 * (freq / 16)) := by ring
        _ ≤ (j + 1) * (nch * 2 * (freq / 16)) :=
          Nat.mul_le_mul_right _ (by omega)
      have hmin : min 65536 (nch * 2 * (freq / 16)) = nch * 2 * (freq / 16) :=
        Nat.min_eq_right hsmall
      have htake_len : (stream.take (nch * 2 * (freq / 16))).length
          = nch * 2 * (freq / 16) := by
        rw [List.length_take]; omega
      have heb2 : 2 ≤ nch * 2 * (freq / 16) := by
        have h1 : 1 * 2 * 1 ≤ nch * 2 * (freq / 16) :=
          Nat.mul_le_mul (Nat.mul_le_mul hn (Nat.le_refl 2)) hs
        simpa using h1
      have hne' : stream.take (nch * 2 * (freq / 16)) ≠ [] := by
        intro h
        rw [h] at htake_len
        simp at htake_len
        omega
      have hdec := decodeFrame_ok nch (freq / 16) hn
        (stream.take (nch * 2 * (freq / 16))) htake_len
      have hdrop_len : (stream.drop (nch * 2 * (freq / 16))).length
          = j * (nch * 2 * (freq / 16)) := by
        rw [List.length_drop, hlen, Nat.succ_mul]; omega
      rw [List.replicate_succ]
      rw [runLoop_first_step nch running (j + 1) stream (nch * 2 * (freq / 16))
        (List.replicate j (nch * 2 * (freq / 16)))
        (decodedFrame nch (stream.take (nch * 2 * (freq / 16))))
        (by rw [hmin]; exact hne') (by rw [hmin]; exact hdec)]
      rw [hmin, htake_len]
      rw [runLoop_aligned nch (freq / 16) running hn hs j
        (stream.drop (nch * 2 * (freq / 16))) hdrop_len]
      rw [List.range_succ_eq_map, List.map_cons, List.map_map]
      have hhead : (stream.drop (0 * (nch * 2 * (freq / 16)))).take (nch * 2 * (freq / 16))
          = stream.take (nch * 2 * (freq / 16)) := by
        rw [Nat.zero_mul, List.drop_zero]
      rw [hhead]
      congr 1
      apply List.map_congr_left
      intro m _
      simp only [Function.comp]
      rw [List.drop_drop]
      have hm : nch * 2 * (freq / 16) + m * (nch * 2 * (freq / 16))
          = (m + 1) * (nch * 2 * (freq / 16)) := by ring
      rw [hm]
  refine ⟨hmain, ?_⟩
  intro f hi
  rw [hmain, List.mem_map] at hi
  obtain ⟨m, hm, rfl⟩ := hi
  rw [List.mem_range] at hm
  have hchunk : ((stream.drop (m * expectedBytes nch freq)).take
      (expectedBytes nch freq)).length = nch * 2 * (freq / 16) := by
    rw [List.length_take, List.length_drop, hlen, ← heb]
    have h1 : (m + 1) * expectedBytes nch freq ≤ k * expectedBytes nch freq :=
      Nat.mul_le_mul_right _ (by omega)
    rw [Nat.succ_mul] at h1
    omega
  exact decodedFrame_shape nch (freq / 16) hn _ hchunk

set_option maxRecDepth 10000 in
/-- C1 counterexample: E2E-A's setting — 72 channels at 288 expected
bytes per frame, one frame's worth of bytes arriving as reads of 100, 50
and 138 bytes. The auto-detection locks `packet_bytes = 100`, the
100-byte packet fails `reshape((-1, 72))`, the thread dies, and no frame
is produced, against the claimed `288/288 = 1` frame. -/
theorem c1_chunked_counterexample :
    expectedBytes 72 32 = 288
    ∧ (List.replicate 288 (0 : ℕ)).length % expectedBytes 72 32 = 0
    ∧ (List.replicate 288 (0 : ℕ)).length / expectedBytes 72 32 = 1
    ∧ runModel 72 true (List.replicate 288 0) [100, 50, 138] = [] := by
  refine ⟨by decide, by decide, by decide, by decide⟩

/-- Witness for the amended C1: 2 channels at 16 Hz, 4-byte frames, two
frames delivered in two exact reads. -/
theorem c1_aligned_reads_witness :
    (0 : ℕ) < 2 ∧ (16 : ℕ) ≤ 16 ∧ expectedBytes 2 16 ≤ 65536
    ∧ (List.replicate 8 (0 : ℕ)).length = 2 * expectedBytes 2 16
    ∧ runModel 2 true (List.replicate 8 0) (List.replicate 2 (expectedBytes 2 16))
        = (List.range 2).map (fun m =>
            decodedFrame 2 (((List.replicate 8 (0 : ℕ)).drop
              (m * expectedBytes 2 16)).take (expectedBytes 2 16))) := by
  have h := c1_aligned_reads 2 16 true 2 (List.replicate 8 0) (by norm_num)
    (by norm_num) (by decide) (by decide)
  exact ⟨by norm_num, by norm_num, by decide, by decide, h.1⟩
